import Mathlib

/-
Verification of the sparse-tensor format model and format-aware loop-nest
lowering engine of this repository.

The embedded Python surface is src/python/tvm/sparse.py (the SparseFormat
tag constants and the dense_format convenience constructor).  The lowering
engine proper (tensor binding, iteration-space merger, loop-nest lowerer)
is implemented outside src/ — only its test and the design document are
present — so those components are modelled from the spec, as marked on each
definition.
-/

namespace SparseLowering

/-- Embedded from src/python/tvm/sparse.py: the class constant
`SparseFormat.Dense = 0`. -/
def SparseFormat.Dense : Nat := 0

/-- Embedded from src/python/tvm/sparse.py: the class constant
`SparseFormat.Sparse = 1`. -/
def SparseFormat.Sparse : Nat := 1

/-- Modelled from the spec: the `_api_internal._SparseFormat` factory called by
`dense_format` is implemented outside src/ (only its Python caller is present).
Per the spec (§9) it is a factory taking an explicit sequence of level-format
tags and returning a plain immutable value; the `stypes` field records the
sequence that was passed. -/
structure SparseFormatNode where
  stypes : List Nat
deriving DecidableEq, Repr

/-- Embedded from src/python/tvm/sparse.py:
`dense_format(n)` returns `_api_internal._SparseFormat([SparseFormat.Dense for i in range(n)])`. -/
def dense_format (n : Nat) : SparseFormatNode :=
  SparseFormatNode.mk ((List.range n).map (fun _ => SparseFormat.Dense))

/-- Modelled from the spec: the `LevelFormat` enum (§3), a closed tagged
variant with the two per-axis storage disciplines. -/
inductive LevelFormat where
  | Dense : LevelFormat
  | Sparse : LevelFormat
deriving DecidableEq, Repr

/-- Modelled from the spec: a Format Descriptor (§3) is an ordered sequence of
per-axis level tags. -/
abbrev FormatDescriptor := List LevelFormat

/-- Modelled from the spec: the error kinds of §7, all reported synchronously. -/
inductive LoweringError where
  | InvalidFormatLength : LoweringError
  | ShapeFormatMismatch : LoweringError
  | RankAxisOutOfRange : LoweringError
  | AxisOrderingConflict : LoweringError
  | UnsupportedSparseUnion : LoweringError
deriving DecidableEq, Repr

/-- Modelled from the spec: a TensorBinding (§3, §4.2) associates a shape, a
Format Descriptor and an element type; immutable after creation. -/
structure TensorBinding where
  shape : List Nat
  format : FormatDescriptor
  elemType : String
deriving DecidableEq, Repr

/-- Modelled from the spec: `declare(shape, format, element_type)` (§4.2) —
returns a TensorBinding exposing the given fields, failing with
`ShapeFormatMismatch` when `len(shape) != len(format)`; the function is pure
(side-effect-free). -/
def declare (shape : List Nat) (format : FormatDescriptor) (elemType : String) :
    Except LoweringError TensorBinding :=
  if shape.length = format.length then
    Except.ok (TensorBinding.mk shape format elemType)
  else
    Except.error LoweringError.ShapeFormatMismatch

/-- Modelled from the spec: the combination kind of the expression operator at
an axis — multiplication-type (intersection semantics) or addition-type (union
semantics), §4.3. -/
inductive CombineKind where
  | mul : CombineKind
  | add : CombineKind
deriving DecidableEq, Repr

/-- Modelled from the spec: the merge kind of an AxisPlan (§3, §4.3). -/
inductive MergeKind where
  | PlainRange : MergeKind
  | SparsePositionWalk : MergeKind
  | MergedSparseWalk : MergeKind
deriving DecidableEq, Repr

/-- Number of tensors contributing a Sparse level at an axis. -/
def sparseCount (contribs : List LevelFormat) : Nat :=
  contribs.count LevelFormat.Sparse

/-- Modelled from the spec: the Iteration-Space Merger decision rule (§4.3),
per axis, given the formats contributed by the tensors referencing that axis
and the combination kind of the expression operator: all-Dense (or no
contributor) gives PlainRange; exactly one Sparse contributor gives
SparsePositionWalk; two or more Sparse contributors give MergedSparseWalk for
multiplication-type combination and fail with `UnsupportedSparseUnion` for
addition-type combination. -/
def mergeAxis (contribs : List LevelFormat) (combine : CombineKind) :
    Except LoweringError MergeKind :=
  if sparseCount contribs = 0 then
    Except.ok MergeKind.PlainRange
  else if sparseCount contribs = 1 then
    Except.ok MergeKind.SparsePositionWalk
  else
    match combine with
    | CombineKind.mul => Except.ok MergeKind.MergedSparseWalk
    | CombineKind.add => Except.error LoweringError.UnsupportedSparseUnion

/-- Modelled from the spec: the per-axis input to the Lowerer — the axis
extent, the level formats contributed by the referencing tensors (in operand
order), and the combination kind of the operator joining them. -/
structure AxisSpec where
  extent : Nat
  contribs : List LevelFormat
  combine : CombineKind
deriving DecidableEq, Repr

/-- Modelled from the spec: one frame per axis of the emitted loop nest (§6) —
a counting loop for PlainRange; a position-bounded walk, tagged with the index
of the sparse contributor that drives it, for SparsePositionWalk; a
multi-cursor merge loop, tagged with the indices of all sparse contributors,
for MergedSparseWalk. -/
inductive LoopNest where
  | leaf : LoopNest
  | plainLoop (extent : Nat) (body : LoopNest) : LoopNest
  | posWalkLoop (driver : Nat) (body : LoopNest) : LoopNest
  | mergeLoop (cursors : List Nat) (body : LoopNest) : LoopNest
deriving DecidableEq, Repr

/-- Indices (operand positions) of the Sparse contributors at an axis. -/
def sparseIndices (contribs : List LevelFormat) : List Nat :=
  (List.range contribs.length).filter
    (fun i => contribs.getD i LevelFormat.Dense = LevelFormat.Sparse)

/-- Modelled from the spec: the Loop-Nest Lowerer (§4.4) walks the axes in
nesting order, requests an AxisPlan from the Merger at each axis, and emits
the corresponding loop frame; it fails synchronously when the Merger fails. -/
def lowerNest : List AxisSpec → Except LoweringError LoopNest
  | [] => Except.ok LoopNest.leaf
  | a :: rest =>
    match mergeAxis a.contribs a.combine with
    | Except.error e => Except.error e
    | Except.ok k =>
      match lowerNest rest with
      | Except.error e => Except.error e
      | Except.ok body =>
        match k with
        | MergeKind.PlainRange => Except.ok (LoopNest.plainLoop a.extent body)
        | MergeKind.SparsePositionWalk =>
          Except.ok (LoopNest.posWalkLoop
            (a.contribs.findIdx (fun f => f = LevelFormat.Sparse)) body)
        | MergeKind.MergedSparseWalk =>
          Except.ok (LoopNest.mergeLoop (sparseIndices a.contribs) body)

/-- True when a nest contains a frame that introduces a position cursor and a
recovered-coordinate variable (a sparse walk or a merge loop). -/
def LoopNest.usesPosCoord : LoopNest → Bool
  | LoopNest.leaf => false
  | LoopNest.plainLoop _ b => b.usesPosCoord
  | LoopNest.posWalkLoop _ _ => true
  | LoopNest.mergeLoop _ _ => true

/-- True when every frame of the nest is a plain counting loop. -/
def LoopNest.allPlainRange : LoopNest → Bool
  | LoopNest.leaf => true
  | LoopNest.plainLoop _ b => b.allPlainRange
  | LoopNest.posWalkLoop _ _ => false
  | LoopNest.mergeLoop _ _ => false

/-- The pure counting nest over the given axes' extents: a plain loop per
axis, outermost first. -/
def denseCountingNest (axes : List AxisSpec) : LoopNest :=
  axes.foldr (fun a n => LoopNest.plainLoop a.extent n) LoopNest.leaf

/-- Modelled from the spec: the compressed storage of a `[Dense, Sparse]`
matrix (§3, §4.5): `pos[i]` and `pos[i+1]` bound the half-open range of
entries of row `i` in the shared `coord` array, and the parallel `val` array
holds the stored element values, addressed by the same entry index. -/
structure CSR where
  pos : List Nat
  coord : List Nat
  val : List Int
deriving DecidableEq, Repr

/-- The entry indices of row `i` of a CSR matrix: the half-open range
`[pos[i], pos[i+1])`. -/
def csrRange (A : CSR) (i : Nat) : List Nat :=
  List.range' (A.pos.getD i 0) (A.pos.getD (i + 1) 0 - A.pos.getD i 0)

/-- Modelled from the spec: the inner reduction loop emitted for the SpMV
compute definition `C[i] = sum_k A[i,k] * B[k]` with `A` format
`[Dense, Sparse]` and `B` Dense (§4.4 steps 1-3): the output element starts at
the additive identity, and for each entry index `idx` in `[pos[i], pos[i+1])`
the recovered coordinate `coord[idx]` addresses the dense operand `B`, and
`val[idx] * B[coord[idx]]` accumulates into the output element. -/
def spmvRow (A : CSR) (B : Nat → Int) (i : Nat) : Int :=
  (csrRange A i).foldl
    (fun acc idx => acc + A.val.getD idx 0 * B (A.coord.getD idx 0)) 0

/-- Modelled from the spec: the full emitted SpMV nest — a plain counting loop
over the `m` rows, each row's element computed by its own reduction loop. -/
def spmvLowered (m : Nat) (A : CSR) (B : Nat → Int) : List Int :=
  (List.range m).map (spmvRow A B)

/-- The dense reference computation `C[i] = Σ_k A_dense[i,k] * B[k]` over `n`
columns. -/
def denseMV (Ad : Nat → Nat → Int) (B : Nat → Int) (n : Nat) (i : Nat) : Int :=
  ((List.range n).map (fun k => Ad i k * B k)).sum

/-- The logical matrix denoted by a CSR structure: entry `(i, k)` sums the
stored values of row `i` whose recovered coordinate is `k` (with strictly
increasing coordinates per row, at most one entry contributes). -/
def CSR.logical (A : CSR) (i k : Nat) : Int :=
  (((csrRange A i).filter (fun idx => A.coord.getD idx 0 = k)).map
    (fun idx => A.val.getD idx 0)).sum

/-- Minimum of a list of naturals (0 for the empty list). -/
def listMin : List Nat → Nat
  | [] => 0
  | [x] => x
  | x :: y :: rest => min x (listMin (y :: rest))

/-- The minimum of a nonempty list is one of its elements. -/
theorem listMin_mem : ∀ (l : List Nat), l ≠ [] → listMin l ∈ l
  | [], h => absurd rfl h
  | [x], _ => by simp [listMin]
  | x :: y :: rest, _ => by
    rw [listMin]
    rcases Nat.le_total x (listMin (y :: rest)) with h | h
    · rw [min_eq_left h]
      exact List.mem_cons_self x (y :: rest)
    · rw [min_eq_right h]
      exact List.mem_cons_of_mem x (listMin_mem (y :: rest) (by simp))

/-- The minimum of a list bounds every element from below. -/
theorem listMin_le : ∀ (l : List Nat), ∀ x ∈ l, listMin l ≤ x
  | [], x, hx => absurd hx (by simp)
  | [a], x, hx => by
    rcases List.mem_singleton.mp hx with rfl
    simp [listMin]
  | a :: b :: rest, x, hx => by
    rw [listMin]
    rcases List.mem_cons.mp hx with rfl | hx2
    · exact min_le_left _ _
    · exact le_trans (min_le_right _ _) (listMin_le (b :: rest) x hx2)

/-- The minimum coordinate currently under the cursors: the least of the
recovered head coordinates. -/
def walkMin (cursors : List (List Nat)) : Nat :=
  listMin (cursors.map (fun c => c.headD 0))

/-- Dropping cursor heads never increases the total remaining length. -/
theorem sum_map_length_tail_le (cursors : List (List Nat)) :
    (cursors.map (fun c => c.tail.length)).sum ≤ (cursors.map List.length).sum := by
  induction cursors with
  | nil => simp
  | cons c rest ih =>
    simp only [List.map_cons, List.sum_cons]
    have hc : c.tail.length ≤ c.length := by
      cases c <;> simp
    omega

/-- Dropping the head of every cursor of a nonempty all-active cursor set
strictly decreases the total remaining length. -/
theorem sum_map_length_tail_lt (cursors : List (List Nat)) (hne : cursors ≠ [])
    (hact : ∀ c ∈ cursors, c ≠ []) :
    (cursors.map (fun c => c.tail.length)).sum < (cursors.map List.length).sum := by
  rcases cursors with _ | ⟨c, rest⟩
  · exact absurd rfl hne
  · simp only [List.map_cons, List.sum_cons]
    have h1 : c.tail.length < c.length := by
      rcases c with _ | ⟨a, t⟩
      · exact absurd rfl (hact [] (List.mem_cons_self [] rest))
      · simp
    have h2 := sum_map_length_tail_le rest
    omega

/-- Advancing a subset of cursors never increases the total remaining
length. -/
theorem sum_map_length_advance_le (cursors : List (List Nat)) (m : Nat) :
    (cursors.map (fun c => (if c.headD 0 = m then c.tail else c).length)).sum
      ≤ (cursors.map List.length).sum := by
  induction cursors with
  | nil => simp
  | cons c rest ih =>
    simp only [List.map_cons, List.sum_cons]
    have hc : (if c.headD 0 = m then c.tail else c).length ≤ c.length := by
      split
      · cases c <;> simp
      · exact le_refl _
    omega

/-- Advancing the cursor(s) holding the minimum coordinate strictly decreases
the total remaining length when some active cursor holds it. -/
theorem sum_map_length_advance_lt (cursors : List (List Nat)) (m : Nat)
    (hact : ∀ c ∈ cursors, c ≠ [])
    (hex : ∃ c ∈ cursors, c.headD 0 = m) :
    (cursors.map (fun c => (if c.headD 0 = m then c.tail else c).length)).sum
      < (cursors.map List.length).sum := by
  induction cursors with
  | nil => simp at hex
  | cons c rest ih =>
    simp only [List.map_cons, List.sum_cons]
    by_cases hc : c.headD 0 = m
    · have h1 : (if c.headD 0 = m then c.tail else c).length < c.length := by
        rw [if_pos hc]
        rcases c with _ | ⟨a, t⟩
        · exact absurd rfl (hact [] (List.mem_cons_self [] rest))
        · simp
      have h2 := sum_map_length_advance_le rest m
      omega
    · have h1 : (if c.headD 0 = m then c.tail else c).length = c.length := by
        rw [if_neg hc]
      have hex2 : ∃ c2 ∈ rest, c2.headD 0 = m := by
        rcases hex with ⟨c2, hc2, hm⟩
        rcases List.mem_cons.mp hc2 with rfl | h
        · exact absurd hm hc
        · exact ⟨c2, h, hm⟩
      have h2 := ih (fun c2 h => hact c2 (List.mem_cons_of_mem c h)) hex2
      omega

/-- Modelled from the spec: the MergedSparseWalk merge-intersection algorithm
(§4.3) over any number of sparse cursors. While every cursor is active
(nonempty), compare the recovered coordinates (the cursor heads) of all
active cursors: when all cursors agree on the same coordinate, execute the
inner body `f` on the shared coordinate and advance every cursor; otherwise
advance exactly the cursor(s) holding the minimum coordinate. The walk stops
as soon as any cursor is exhausted. -/
def mergeWalkN {α : Type} (f : Nat → α → α) (cursors : List (List Nat))
    (acc : α) : α :=
  if h0 : cursors = [] then acc
  else if hemp : ∃ c ∈ cursors, c = [] then acc
  else if hall : cursors.all (fun c => c.headD 0 = walkMin cursors) then
    mergeWalkN f (cursors.map (fun c => c.tail)) (f (walkMin cursors) acc)
  else
    mergeWalkN f
      (cursors.map (fun c => if c.headD 0 = walkMin cursors then c.tail else c))
      acc
termination_by (cursors.map List.length).sum
decreasing_by
  · simp only [List.map_map, Function.comp]
    exact sum_map_length_tail_lt cursors h0
      (by
        intro c hc
        intro hceq
        exact hemp ⟨c, hc, hceq⟩)
  · simp only [List.map_map, Function.comp]
    refine sum_map_length_advance_lt cursors (walkMin cursors)
      (by
        intro c hc
        intro hceq
        exact hemp ⟨c, hc, hceq⟩)
      ?_
    have hmem : walkMin cursors ∈ cursors.map (fun c => c.headD 0) :=
      listMin_mem (cursors.map (fun c => c.headD 0)) (by simpa using h0)
    rcases List.mem_map.mp hmem with ⟨c, hc, hceq⟩
    exact ⟨c, hc, hceq⟩

/-- Structural equality of loop nests, frame by frame. -/
def LoopNest.structEq : LoopNest → LoopNest → Bool
  | LoopNest.leaf, LoopNest.leaf => true
  | LoopNest.plainLoop e1 b1, LoopNest.plainLoop e2 b2 =>
    e1 = e2 && b1.structEq b2
  | LoopNest.posWalkLoop d1 b1, LoopNest.posWalkLoop d2 b2 =>
    d1 = d2 && b1.structEq b2
  | LoopNest.mergeLoop c1 b1, LoopNest.mergeLoop c2 b2 =>
    c1 = c2 && b1.structEq b2
  | _, _ => false

/-! Helper lemmas. -/

/-- The Merger's only failure at the decision rule is the unsupported-union
case. -/
theorem mergeAxis_error_eq (contribs : List LevelFormat) (c : CombineKind)
    (e : LoweringError) (h : mergeAxis contribs c = Except.error e) :
    e = LoweringError.UnsupportedSparseUnion := by
  unfold mergeAxis at h
  split at h
  · exact absurd h (by simp)
  · split at h
    · exact absurd h (by simp)
    · cases c with
      | mul => exact absurd h (by simp)
      | add => simpa using h.symm

/-- Two or more Sparse contributors with addition-type combination make the
Merger fail with `UnsupportedSparseUnion`. -/
theorem mergeAxis_union_error (contribs : List LevelFormat)
    (h : 2 ≤ sparseCount contribs) :
    mergeAxis contribs CombineKind.add
      = Except.error LoweringError.UnsupportedSparseUnion := by
  unfold mergeAxis
  rw [if_neg (by omega), if_neg (by omega)]

/-- An all-Dense contribution list has no Sparse contributor. -/
theorem sparseCount_eq_zero_of_all_dense (contribs : List LevelFormat)
    (h : ∀ f ∈ contribs, f = LevelFormat.Dense) : sparseCount contribs = 0 := by
  rw [sparseCount, List.count_eq_zero]
  intro hmem
  exact absurd (h _ hmem) (by simp)

/-- Structural equality of loop nests is reflexive. -/
theorem LoopNest.structEq_refl (n : LoopNest) : n.structEq n = true := by
  induction n with
  | leaf => rfl
  | plainLoop e b ih => simp [LoopNest.structEq, ih]
  | posWalkLoop d b ih => simp [LoopNest.structEq, ih]
  | mergeLoop c b ih => simp [LoopNest.structEq, ih]

/-! Claim theorems. -/

/-- C10: the two LevelFormat tags are the distinct integer constants
`SparseFormat.Dense = 0` and `SparseFormat.Sparse = 1`, and `dense_format n`
passes exactly a list of `n` copies of the Dense tag (so `dense_format 0`
passes the empty list) to the underlying format constructor. -/
theorem claim_C10_tag_constants :
    SparseFormat.Dense = 0 ∧ SparseFormat.Sparse = 1 ∧
    (∀ n : Nat, (dense_format n).stypes = List.replicate n SparseFormat.Dense) ∧
    (dense_format 0).stypes = [] := by
  refine ⟨rfl, rfl, ?_, rfl⟩
  intro n
  simp [dense_format]

/-- C8: `dense_format n` returns a format descriptor of length exactly `n`
in which every per-axis entry is the Dense level tag. -/
theorem claim_C8_dense_format (n : Nat) :
    (dense_format n).stypes.length = n ∧
    ∀ x ∈ (dense_format n).stypes, x = SparseFormat.Dense := by
  constructor
  · simp [dense_format]
  · intro x hx
    simp [dense_format] at hx
    omega

/-- C8 witness: the rank-3 instance. -/
theorem claim_C8_dense_format_witness :
    (dense_format 3).stypes.length = 3 ∧
    (dense_format 3).stypes.getD 1 7 = SparseFormat.Dense :=
  ⟨(claim_C8_dense_format 3).1,
   (claim_C8_dense_format 3).2 ((dense_format 3).stypes.getD 1 7) (by decide)⟩

/-- C7: `declare(shape, format, element_type)` succeeds and returns a
TensorBinding exposing the given shape, format and element type whenever
`len(shape) = len(format)`, and fails with `ShapeFormatMismatch` whenever
`len(shape) ≠ len(format)` (the embedding is a pure function, so the call is
side-effect-free). -/
theorem claim_C7_declare (shape : List Nat) (format : FormatDescriptor)
    (et : String) :
    (shape.length = format.length →
      declare shape format et = Except.ok (TensorBinding.mk shape format et)) ∧
    (shape.length ≠ format.length →
      declare shape format et = Except.error LoweringError.ShapeFormatMismatch) := by
  constructor <;> intro h <;> simp [declare, h]

/-- C7 witness: a matched and a mismatched instance. -/
theorem claim_C7_declare_witness :
    declare [3, 4] [LevelFormat.Dense, LevelFormat.Sparse] "float32"
      = Except.ok
          (TensorBinding.mk [3, 4] [LevelFormat.Dense, LevelFormat.Sparse] "float32") ∧
    declare [3, 4] [LevelFormat.Dense] "float32"
      = Except.error LoweringError.ShapeFormatMismatch :=
  ⟨(claim_C7_declare [3, 4] [LevelFormat.Dense, LevelFormat.Sparse] "float32").1
      (by decide),
   (claim_C7_declare [3, 4] [LevelFormat.Dense] "float32").2 (by decide)⟩

/-- C3: a compute definition containing an axis at which two or more tensors
contribute Sparse with addition-type (union) combination fails to lower with
`UnsupportedSparseUnion`; no loop nest is produced. -/
theorem claim_C3_union_rejected (axes : List AxisSpec) (a : AxisSpec)
    (ha : a ∈ axes) (hs : 2 ≤ sparseCount a.contribs)
    (hc : a.combine = CombineKind.add) :
    lowerNest axes = Except.error LoweringError.UnsupportedSparseUnion := by
  induction axes with
  | nil => cases ha
  | cons b rest ih =>
    rcases List.mem_cons.mp ha with hab | hmem
    · subst hab
      rw [lowerNest, hc, mergeAxis_union_error a.contribs hs]
    · cases hm : mergeAxis b.contribs b.combine with
      | error e =>
        rw [lowerNest, hm, mergeAxis_error_eq b.contribs b.combine e hm]
      | ok k =>
        rw [lowerNest, hm, ih hmem]

/-- C3 witness: a sparse-plus-sparse axis inside a two-axis definition. -/
theorem claim_C3_union_rejected_witness :
    AxisSpec.mk 4 [LevelFormat.Sparse, LevelFormat.Sparse] CombineKind.add
      ∈ [AxisSpec.mk 3 [LevelFormat.Dense] CombineKind.mul,
         AxisSpec.mk 4 [LevelFormat.Sparse, LevelFormat.Sparse] CombineKind.add] ∧
    2 ≤ sparseCount [LevelFormat.Sparse, LevelFormat.Sparse] ∧
    lowerNest
      [AxisSpec.mk 3 [LevelFormat.Dense] CombineKind.mul,
       AxisSpec.mk 4 [LevelFormat.Sparse, LevelFormat.Sparse] CombineKind.add]
      = Except.error LoweringError.UnsupportedSparseUnion :=
  ⟨by decide, by decide,
   claim_C3_union_rejected
     [AxisSpec.mk 3 [LevelFormat.Dense] CombineKind.mul,
      AxisSpec.mk 4 [LevelFormat.Sparse, LevelFormat.Sparse] CombineKind.add]
     (AxisSpec.mk 4 [LevelFormat.Sparse, LevelFormat.Sparse] CombineKind.add)
     (by decide) (by decide) rfl⟩

/-- C6: a compute definition whose operands all declare Dense at every axis
lowers to the pure counting nest over the full shape — every frame is a
PlainRange loop with the axis extent, and no position/coordinate variables
appear anywhere in the nest. -/
theorem claim_C6_all_dense (axes : List AxisSpec)
    (h : ∀ a ∈ axes, ∀ f ∈ a.contribs, f = LevelFormat.Dense) :
    lowerNest axes = Except.ok (denseCountingNest axes) ∧
    (denseCountingNest axes).allPlainRange = true ∧
    (denseCountingNest axes).usesPosCoord = false := by
  induction axes with
  | nil => exact ⟨rfl, rfl, rfl⟩
  | cons a rest ih =>
    have ha : ∀ f ∈ a.contribs, f = LevelFormat.Dense :=
      h a (List.mem_cons_self a rest)
    have hrest := ih (fun b hb => h b (List.mem_cons_of_mem a hb))
    have hz : sparseCount a.contribs = 0 := sparseCount_eq_zero_of_all_dense _ ha
    have hm : mergeAxis a.contribs a.combine = Except.ok MergeKind.PlainRange := by
      unfold mergeAxis
      rw [if_pos hz]
    refine ⟨?_, ?_, ?_⟩
    · rw [lowerNest, hm, hrest.1]
      rfl
    · simpa [denseCountingNest, LoopNest.allPlainRange] using hrest.2.1
    · simpa [denseCountingNest, LoopNest.usesPosCoord] using hrest.2.2

/-- C6 witness: a two-axis all-Dense definition. -/
theorem claim_C6_all_dense_witness :
    (∀ a ∈ [AxisSpec.mk 2 [LevelFormat.Dense] CombineKind.mul,
            AxisSpec.mk 5 [LevelFormat.Dense, LevelFormat.Dense] CombineKind.mul],
        ∀ f ∈ a.contribs, f = LevelFormat.Dense) ∧
    lowerNest [AxisSpec.mk 2 [LevelFormat.Dense] CombineKind.mul,
               AxisSpec.mk 5 [LevelFormat.Dense, LevelFormat.Dense] CombineKind.mul]
      = Except.ok
          (denseCountingNest
            [AxisSpec.mk 2 [LevelFormat.Dense] CombineKind.mul,
             AxisSpec.mk 5 [LevelFormat.Dense, LevelFormat.Dense] CombineKind.mul]) :=
  ⟨by decide,
   (claim_C6_all_dense
      [AxisSpec.mk 2 [LevelFormat.Dense] CombineKind.mul,
       AxisSpec.mk 5 [LevelFormat.Dense, LevelFormat.Dense] CombineKind.mul]
      (by decide)).1⟩

/-- C9: lowering is deterministic and stateless — the lowering function is a
pure function of the compute definition, so two lowerings of the same axes
yield structurally identical loop nests. -/
theorem claim_C9_deterministic (axes : List AxisSpec) (n1 n2 : LoopNest)
    (h1 : lowerNest axes = Except.ok n1) (h2 : lowerNest axes = Except.ok n2) :
    n1.structEq n2 = true := by
  rw [h1] at h2
  injection h2 with h
  subst h
  exact LoopNest.structEq_refl n1

/-- C9 witness: two lowerings of the SpMV axis list. -/
theorem claim_C9_deterministic_witness :
    lowerNest [AxisSpec.mk 3 [LevelFormat.Dense, LevelFormat.Sparse] CombineKind.mul]
      = Except.ok (LoopNest.posWalkLoop 1 LoopNest.leaf) ∧
    (LoopNest.posWalkLoop 1 LoopNest.leaf).structEq
      (LoopNest.posWalkLoop 1 LoopNest.leaf) = true :=
  ⟨rfl,
   claim_C9_deterministic
     [AxisSpec.mk 3 [LevelFormat.Dense, LevelFormat.Sparse] CombineKind.mul]
     (LoopNest.posWalkLoop 1 LoopNest.leaf) (LoopNest.posWalkLoop 1 LoopNest.leaf)
     rfl rfl⟩

/-- C5: the output element is initialized to the additive identity once per
free-axis value (each row's reduction starts from 0, not from a global
accumulator); a row whose position range is empty (`pos[i] = pos[i+1]`) runs
zero inner iterations and its stored output element equals the additive
identity. -/
theorem claim_C5_empty_range (m : Nat) (A : CSR) (B : Nat → Int) (i : Nat)
    (him : i < m) (hempty : A.pos.getD i 0 = A.pos.getD (i + 1) 0) :
    csrRange A i = [] ∧ spmvRow A B i = 0 ∧ (spmvLowered m A B).getD i 0 = 0 := by
  have hr : csrRange A i = [] := by
    unfold csrRange
    rw [hempty, Nat.sub_self]
    rfl
  have hrow : spmvRow A B i = 0 := by
    rw [spmvRow, hr]
    rfl
  refine ⟨hr, hrow, ?_⟩
  simp [spmvLowered, List.getD_eq_getElem?_getD, List.getElem?_map,
    List.getElem?_range, him, hrow]

/-- C5 witness: row 1 of a two-row matrix with an empty middle range stays at
the additive identity while row 0 accumulates. -/
theorem claim_C5_empty_range_witness :
    1 < 2 ∧
    (CSR.mk [0, 2, 2] [0, 1] [5, 7]).pos.getD 1 0
      = (CSR.mk [0, 2, 2] [0, 1] [5, 7]).pos.getD 2 0 ∧
    (spmvLowered 2 (CSR.mk [0, 2, 2] [0, 1] [5, 7]) (fun _ => 1)).getD 1 0 = 0 :=
  ⟨by decide, by decide,
   (claim_C5_empty_range 2 (CSR.mk [0, 2, 2] [0, 1] [5, 7]) (fun _ => 1) 1
      (by decide) (by decide)).2.2⟩

/-- The CSR fixture of the round-trip test:
`pos = [0,2,5,6]`, `coord = [1,2,1,2,3,3]`, `val = [A,B,C,D,E,F]`. -/
def testCSR (a b c d e f : Int) : CSR :=
  CSR.mk [0, 2, 5, 6] [1, 2, 1, 2, 3, 3] [a, b, c, d, e, f]

/-- The dense 3x4 matrix `[[0,A,B,0],[0,C,D,E],[0,0,0,F]]` that the CSR
fixture represents, as rows of values. -/
def testDenseMat (a b c d e f : Int) : List (List Int) :=
  [[0, a, b, 0], [0, c, d, e], [0, 0, 0, f]]

/-- Entry access into the dense fixture matrix (0 outside the stored rows). -/
def testDense (a b c d e f : Int) (i k : Nat) : Int :=
  ((testDenseMat a b c d e f).getD i []).getD k 0

/-- C1: lowering the SpMV definition over the CSR fixture emits a counting
loop over the 3 rows with a position walk driven by the sparse operand; for
each row `i` the walk iterates `idx` over `[pos[i], pos[i+1])` (the ranges
`[0,2)`, `[2,5)`, `[5,6)`), recovers the coordinates `coord[idx]`
(`1,2` / `1,2,3` / `3`), accumulates `val[idx] * B[coord[idx]]`, and the
numeric result equals the dense reference computation. -/
theorem claim_C1_csr_roundtrip (a b c d e f : Int) (B : Nat → Int) :
    lowerNest [AxisSpec.mk 3 [LevelFormat.Dense] CombineKind.mul,
               AxisSpec.mk 4 [LevelFormat.Sparse, LevelFormat.Dense] CombineKind.mul]
      = Except.ok (LoopNest.plainLoop 3 (LoopNest.posWalkLoop 0 LoopNest.leaf)) ∧
    csrRange (testCSR a b c d e f) 0 = [0, 1] ∧
    csrRange (testCSR a b c d e f) 1 = [2, 3, 4] ∧
    csrRange (testCSR a b c d e f) 2 = [5] ∧
    ((csrRange (testCSR a b c d e f) 0).map
      (fun idx => (testCSR a b c d e f).coord.getD idx 0)) = [1, 2] ∧
    ((csrRange (testCSR a b c d e f) 1).map
      (fun idx => (testCSR a b c d e f).coord.getD idx 0)) = [1, 2, 3] ∧
    ((csrRange (testCSR a b c d e f) 2).map
      (fun idx => (testCSR a b c d e f).coord.getD idx 0)) = [3] ∧
    spmvRow (testCSR a b c d e f) B 0 = a * B 1 + b * B 2 ∧
    spmvLowered 3 (testCSR a b c d e f) B
      = [spmvRow (testCSR a b c d e f) B 0,
         spmvRow (testCSR a b c d e f) B 1,
         spmvRow (testCSR a b c d e f) B 2] ∧
    spmvRow (testCSR a b c d e f) B 0 = denseMV (testDense a b c d e f) B 4 0 ∧
    spmvRow (testCSR a b c d e f) B 1 = denseMV (testDense a b c d e f) B 4 1 ∧
    spmvRow (testCSR a b c d e f) B 2 = denseMV (testDense a b c d e f) B 4 2 := by
  refine ⟨rfl, rfl, rfl, rfl, rfl, rfl, rfl, ?_, rfl, ?_, ?_, ?_⟩
  · show ((0 : Int) + a * B 1) + b * B 2 = a * B 1 + b * B 2
    ring
  · have h0 : csrRange (testCSR a b c d e f) 0 = [0, 1] := rfl
    unfold spmvRow
    rw [h0]
    simp [testCSR, denseMV, testDense, testDenseMat, List.range_succ]
  · have h1 : csrRange (testCSR a b c d e f) 1 = [2, 3, 4] := rfl
    unfold spmvRow
    rw [h1]
    simp [testCSR, denseMV, testDense, testDenseMat, List.range_succ]
    ring
  · have h2 : csrRange (testCSR a b c d e f) 2 = [5] := rfl
    unfold spmvRow
    rw [h2]
    simp [testCSR, denseMV, testDense, testDenseMat, List.range_succ]

/-- A coordinate below a sorted cursor's head occurs nowhere in the cursor. -/
theorem not_mem_of_lt_head (c : List Nat) (m : Nat) (hc : c.Pairwise (· < ·))
    (hne : c ≠ []) (hm : m < c.headD 0) : m ∉ c := by
  rcases c with _ | ⟨a, t⟩
  · exact absurd rfl hne
  · rw [List.headD_cons] at hm
    intro hmem
    rcases List.mem_cons.mp hmem with rfl | h
    · omega
    · have := (List.pairwise_cons.mp hc).1 m h
      omega

/-- Membership in a cursor and in its tail agree away from the head. -/
theorem mem_tail_iff_of_ne (c : List Nat) (z : Nat) (hne : c ≠ [])
    (hz : z ≠ c.headD 0) : z ∈ c ↔ z ∈ c.tail := by
  rcases c with _ | ⟨a, t⟩
  · exact absurd rfl hne
  · rw [List.headD_cons] at hz
    simp [List.mem_cons, hz]

/-- The n-ary merge walk over strictly increasing coordinate lists executes
the body exactly at the coordinates present in every cursor list, in the
storage order of the first operand: a coordinate present in only a strict
subset of the cursors is skipped without error and contributes nothing. -/
theorem mergeWalkN_intersection {α : Type} (f : Nat → α → α) :
    ∀ (cursors : List (List Nat)) (acc : α),
      cursors ≠ [] →
      (∀ c ∈ cursors, c.Pairwise (· < ·)) →
      mergeWalkN f cursors acc
        = ((cursors.headD []).filter
            (fun x => decide (∀ c ∈ cursors, x ∈ c))).foldl (fun a x => f x a) acc
  | [], _, hne, _ => absurd rfl hne
  | [] :: tl, acc, _, _ => by
    rw [mergeWalkN, dif_neg (List.cons_ne_nil [] tl),
      dif_pos ⟨[], List.mem_cons_self [] tl, rfl⟩]
    rfl
  | (h1 :: t1) :: tl, acc, hne, hsort => by
    rw [mergeWalkN, dif_neg hne]
    by_cases hemp : ∃ c ∈ (h1 :: t1) :: tl, c = []
    · rw [dif_pos hemp]
      have hfil : (List.headD ((h1 :: t1) :: tl) []).filter
          (fun x => decide (∀ c ∈ (h1 :: t1) :: tl, x ∈ c)) = [] := by
        rw [List.filter_eq_nil_iff]
        intro x _
        simp only [decide_eq_true_eq]
        rcases hemp with ⟨c0, hc0, rfl⟩
        intro hall2
        simpa using hall2 [] hc0
      rw [hfil]
      rfl
    · rw [dif_neg hemp]
      have hact : ∀ c ∈ (h1 :: t1) :: tl, c ≠ [] :=
        fun c hc hceq => hemp ⟨c, hc, hceq⟩
      have hmle : ∀ c ∈ (h1 :: t1) :: tl,
          walkMin ((h1 :: t1) :: tl) ≤ c.headD 0 := by
        intro c hc
        exact listMin_le (((h1 :: t1) :: tl).map (fun c => c.headD 0)) (c.headD 0)
          (List.mem_map_of_mem (fun c => c.headD 0) hc)
      by_cases hall : ((h1 :: t1) :: tl).all
          (fun c => c.headD 0 = walkMin ((h1 :: t1) :: tl)) = true
      · -- every cursor holds the minimum: execute the body, advance all
        rw [dif_pos hall]
        have hallP0 : ∀ c ∈ (h1 :: t1) :: tl,
            c.headD 0 = walkMin ((h1 :: t1) :: tl) := by
          simpa using hall
        have h1m : h1 = walkMin ((h1 :: t1) :: tl) := by
          simpa using hallP0 (h1 :: t1) (List.mem_cons_self _ _)
        have hallP : ∀ c ∈ (h1 :: t1) :: tl, c.headD 0 = h1 := by
          intro c hc
          rw [hallP0 c hc, ← h1m]
        have hne2 : ((h1 :: t1) :: tl).map (fun c => c.tail) ≠ [] := by simp
        have hsort2 : ∀ c ∈ ((h1 :: t1) :: tl).map (fun c => c.tail),
            c.Pairwise (· < ·) := by
          intro c hc
          rcases List.mem_map.mp hc with ⟨c0, hc0, rfl⟩
          exact (hsort c0 hc0).tail
        rw [mergeWalkN_intersection f
          (((h1 :: t1) :: tl).map (fun c => c.tail))
          (f (walkMin ((h1 :: t1) :: tl)) acc) hne2 hsort2, ← h1m]
        simp only [List.map_cons, List.headD_cons, List.tail_cons]
        have hP1 : ∀ c ∈ (h1 :: t1) :: tl, h1 ∈ c := by
          intro c hc
          have hcne := hact c hc
          have hch := hallP c hc
          rcases c with _ | ⟨a, t⟩
          · exact absurd rfl hcne
          · rw [List.headD_cons] at hch
            rw [← hch]
            exact List.mem_cons_self a t
        rw [List.filter_cons, if_pos (by simpa using hP1), List.foldl_cons]
        refine congrArg
          (fun l => List.foldl (fun (a : α) (x : Nat) => f x a) (f h1 acc) l) ?_
        refine List.filter_congr ?_
        intro z hz
        have hzgt : h1 < z :=
          (List.pairwise_cons.mp
            (hsort (h1 :: t1) (List.mem_cons_self _ _))).1 z hz
        rw [decide_eq_decide]
        constructor
        · intro hT c hc
          rcases List.mem_cons.mp hc with rfl | hc2
          · exact List.mem_cons_of_mem h1 hz
          · exact List.mem_of_mem_tail
              (hT c.tail (List.mem_cons_of_mem t1
                (List.mem_map_of_mem (fun c => c.tail) hc2)))
        · intro hA c' hc'
          rcases List.mem_cons.mp hc' with rfl | hc2
          · exact hz
          · rcases List.mem_map.mp hc2 with ⟨c, hc, rfl⟩
            have hcmem : c ∈ (h1 :: t1) :: tl := List.mem_cons_of_mem _ hc
            refine (mem_tail_iff_of_ne c z (hact c hcmem) ?_).mp (hA c hcmem)
            rw [hallP c hcmem]
            omega
      · -- some cursor sits above the minimum: skip it, advance the minimum
        rw [dif_neg hall]
        have hnallP : ∃ c ∈ (h1 :: t1) :: tl,
            ¬ c.headD 0 = walkMin ((h1 :: t1) :: tl) := by
          by_contra hno
          push_neg at hno
          exact hall (by simpa using hno)
        rcases hnallP with ⟨cs, hcs, hcsne⟩
        have hcs_gt : walkMin ((h1 :: t1) :: tl) < cs.headD 0 :=
          Ne.lt_of_le (fun h => hcsne h.symm) (hmle cs hcs)
        have hmnot : walkMin ((h1 :: t1) :: tl) ∉ cs :=
          not_mem_of_lt_head cs _ (hsort cs hcs) (hact cs hcs) hcs_gt
        have hne2 : ((h1 :: t1) :: tl).map
            (fun c => if c.headD 0 = walkMin ((h1 :: t1) :: tl)
              then c.tail else c) ≠ [] := by
          simp
        have hsort2 : ∀ c' ∈ ((h1 :: t1) :: tl).map
            (fun c => if c.headD 0 = walkMin ((h1 :: t1) :: tl)
              then c.tail else c),
            c'.Pairwise (· < ·) := by
          intro c' hc'
          rcases List.mem_map.mp hc' with ⟨c, hc, rfl⟩
          by_cases hgc : c.headD 0 = walkMin ((h1 :: t1) :: tl)
          · rw [if_pos hgc]
            exact (hsort c hc).tail
          · rw [if_neg hgc]
            exact hsort c hc
        rw [mergeWalkN_intersection f (((h1 :: t1) :: tl).map
          (fun c => if c.headD 0 = walkMin ((h1 :: t1) :: tl)
            then c.tail else c)) acc hne2 hsort2]
        simp only [List.map_cons, List.headD_cons, List.tail_cons]
        by_cases hh1 : h1 = walkMin ((h1 :: t1) :: tl)
        · -- the first cursor holds the skipped minimum
          rw [if_pos hh1]
          have hPh1 : ¬ (∀ c ∈ (h1 :: t1) :: tl, h1 ∈ c) := by
            intro h
            apply hmnot
            rw [← hh1]
            exact h cs hcs
          rw [List.filter_cons, if_neg (by simpa using hPh1)]
          refine congrArg
            (fun l => List.foldl (fun (a : α) (x : Nat) => f x a) acc l) ?_
          refine List.filter_congr ?_
          intro z hz
          have hzgt : walkMin ((h1 :: t1) :: tl) < z := by
            have := (List.pairwise_cons.mp
              (hsort (h1 :: t1) (List.mem_cons_self _ _))).1 z hz
            omega
          rw [decide_eq_decide]
          constructor
          · intro hT c hc
            rcases List.mem_cons.mp hc with rfl | hc2
            · exact List.mem_cons_of_mem h1 hz
            · have hmem := hT _ (List.mem_cons_of_mem t1
                (List.mem_map_of_mem
                  (fun c => if c.headD 0 = walkMin ((h1 :: t1) :: tl)
                    then c.tail else c) hc2))
              by_cases hgc : c.headD 0 = walkMin ((h1 :: t1) :: tl)
              · rw [if_pos hgc] at hmem
                exact List.mem_of_mem_tail hmem
              · rw [if_neg hgc] at hmem
                exact hmem
          · intro hA c' hc'
            rcases List.mem_cons.mp hc' with rfl | hc2
            · exact hz
            · rcases List.mem_map.mp hc2 with ⟨c, hc, rfl⟩
              have hcmem : c ∈ (h1 :: t1) :: tl := List.mem_cons_of_mem _ hc
              by_cases hgc : c.headD 0 = walkMin ((h1 :: t1) :: tl)
              · rw [if_pos hgc]
                refine (mem_tail_iff_of_ne c z (hact c hcmem) ?_).mp
                  (hA c hcmem)
                rw [hgc]
                omega
              · rw [if_neg hgc]
                exact hA c hcmem
        · -- the first cursor sits above the minimum and is kept
          rw [if_neg hh1]
          have hm_lt_h1 : walkMin ((h1 :: t1) :: tl) < h1 := by
            have := hmle (h1 :: t1) (List.mem_cons_self _ _)
            rw [List.headD_cons] at this
            omega
          refine congrArg
            (fun l => List.foldl (fun (a : α) (x : Nat) => f x a) acc l) ?_
          refine List.filter_congr ?_
          intro z hz
          have hzgt : walkMin ((h1 :: t1) :: tl) < z := by
            rcases List.mem_cons.mp hz with rfl | hz2
            · exact hm_lt_h1
            · have := (List.pairwise_cons.mp
                (hsort (h1 :: t1) (List.mem_cons_self _ _))).1 z hz2
              omega
          rw [decide_eq_decide]
          constructor
          · intro hT c hc
            rcases List.mem_cons.mp hc with rfl | hc2
            · exact hT (h1 :: t1) (List.mem_cons_self _ _)
            · have hmem := hT _ (List.mem_cons_of_mem (h1 :: t1)
                (List.mem_map_of_mem
                  (fun c => if c.headD 0 = walkMin ((h1 :: t1) :: tl)
                    then c.tail else c) hc2))
              by_cases hgc : c.headD 0 = walkMin ((h1 :: t1) :: tl)
              · rw [if_pos hgc] at hmem
                exact List.mem_of_mem_tail hmem
              · rw [if_neg hgc] at hmem
                exact hmem
          · intro hA c' hc'
            rcases List.mem_cons.mp hc' with rfl | hc2
            · exact hA (h1 :: t1) (List.mem_cons_self _ _)
            · rcases List.mem_map.mp hc2 with ⟨c, hc, rfl⟩
              have hcmem : c ∈ (h1 :: t1) :: tl := List.mem_cons_of_mem _ hc
              by_cases hgc : c.headD 0 = walkMin ((h1 :: t1) :: tl)
              · rw [if_pos hgc]
                refine (mem_tail_iff_of_ne c z (hact c hcmem) ?_).mp
                  (hA c hcmem)
                rw [hgc]
                omega
              · rw [if_neg hgc]
                exact hA c hcmem
termination_by cursors acc _ _ => (cursors.map List.length).sum
decreasing_by
  all_goals simp only [List.map_map, Function.comp_def]
  all_goals
    first
    | exact sum_map_length_tail_lt ((h1 :: t1) :: tl) (by simp) hact
    | exact sum_map_length_advance_lt ((h1 :: t1) :: tl)
        (walkMin ((h1 :: t1) :: tl)) hact
        (by
          have hmem : walkMin ((h1 :: t1) :: tl)
              ∈ ((h1 :: t1) :: tl).map (fun c => c.headD 0) :=
            listMin_mem (((h1 :: t1) :: tl).map (fun c => c.headD 0)) (by simp)
          rcases List.mem_map.mp hmem with ⟨c, hc, hceq⟩
          exact ⟨c, hc, hceq⟩)

/-- C4: when two or more tensors contribute Sparse at an axis with
multiplication-type combination, the Merger emits MergedSparseWalk, and the
merge walk over any number (two or more) of cursors — advancing at each step
only the cursor(s) holding the minimum coordinate — executes the inner body
(and accumulates) only at coordinates present in all contributing operands'
strictly increasing coordinate lists; a coordinate present in only a strict
subset of the operands is skipped without error and without contributing a
zero-padded term. -/
theorem claim_C4_merged_intersection :
    (∀ contribs : List LevelFormat, 2 ≤ sparseCount contribs →
        mergeAxis contribs CombineKind.mul = Except.ok MergeKind.MergedSparseWalk) ∧
    (∀ (f : Nat → Int → Int) (cursors : List (List Nat)) (acc : Int),
        2 ≤ cursors.length →
        (∀ c ∈ cursors, c.Pairwise (· < ·)) →
        mergeWalkN f cursors acc
          = ((cursors.headD []).filter
              (fun x => decide (∀ c ∈ cursors, x ∈ c))).foldl
              (fun a x => f x a) acc) := by
  constructor
  · intro contribs h
    unfold mergeAxis
    rw [if_neg (by omega), if_neg (by omega)]
  · intro f cursors acc hlen hsort
    have hne : cursors ≠ [] := by
      intro h
      rw [h] at hlen
      simp at hlen
    exact mergeWalkN_intersection f cursors acc hne hsort

/-- C4 witness: three sparse operands with coordinate lists `[1,3,5]`,
`[3,4,5]` and `[0,3,5]` — the body runs exactly at the shared coordinates
`3` and `5`. -/
theorem claim_C4_merged_intersection_witness :
    2 ≤ sparseCount [LevelFormat.Sparse, LevelFormat.Sparse, LevelFormat.Sparse] ∧
    2 ≤ ([[1, 3, 5], [3, 4, 5], [0, 3, 5]] : List (List Nat)).length ∧
    (∀ c ∈ ([[1, 3, 5], [3, 4, 5], [0, 3, 5]] : List (List Nat)),
        c.Pairwise (· < ·)) ∧
    mergeAxis [LevelFormat.Sparse, LevelFormat.Sparse, LevelFormat.Sparse]
        CombineKind.mul = Except.ok MergeKind.MergedSparseWalk ∧
    mergeWalkN (fun (c : Nat) (a : Int) => a + (c : Int))
        [[1, 3, 5], [3, 4, 5], [0, 3, 5]] 0
      = ((([[1, 3, 5], [3, 4, 5], [0, 3, 5]] : List (List Nat)).headD []).filter
          (fun x => decide
            (∀ c ∈ ([[1, 3, 5], [3, 4, 5], [0, 3, 5]] : List (List Nat)),
              x ∈ c))).foldl (fun (a : Int) (x : Nat) => a + (x : Int)) 0 :=
  ⟨by decide, by decide, by decide,
   claim_C4_merged_intersection.1
     [LevelFormat.Sparse, LevelFormat.Sparse, LevelFormat.Sparse] (by decide),
   claim_C4_merged_intersection.2 (fun (c : Nat) (a : Int) => a + (c : Int))
     [[1, 3, 5], [3, 4, 5], [0, 3, 5]] 0 (by decide) (by decide)⟩

/-- Folding additive accumulation equals the starting value plus the list sum
of the accumulated terms. -/
theorem foldl_add_eq_sum {β : Type} (g : β → Int) (L : List β) (a0 : Int) :
    L.foldl (fun a x => a + g x) a0 = a0 + (L.map g).sum := by
  induction L generalizing a0 with
  | nil => simp
  | cons x L ih =>
    rw [List.foldl_cons, ih, List.map_cons, List.sum_cons]
    ring

/-- Summing the indicator of a single value over a counting range yields that
value when it lies below the bound. -/
theorem sum_map_range_ite (n c : Nat) (v : Int) (hc : c < n) :
    ((List.range n).map (fun k => if c = k then v else 0)).sum = v := by
  induction n with
  | zero => omega
  | succ n ih =>
    rw [List.range_succ, List.map_append, List.sum_append]
    by_cases h : c = n
    · subst h
      have hz : ∀ x ∈ (List.range c).map (fun k => if c = k then v else 0), x = 0 := by
        intro x hx
        rcases List.mem_map.mp hx with ⟨k, hk, rfl⟩
        have : k < c := List.mem_range.mp hk
        rw [if_neg (by omega)]
      rw [List.sum_eq_zero hz]
      simp
    · have hc' : c < n := by omega
      rw [ih hc']
      simp [h]

/-- Sums of pointwise-added terms split. -/
theorem sum_map_add_split {β : Type} (L : List β) (f g : β → Int) :
    (L.map (fun x => f x + g x)).sum = (L.map f).sum + (L.map g).sum := by
  induction L with
  | nil => simp
  | cons x L ih =>
    simp only [List.map_cons, List.sum_cons, ih]
    ring

/-- Partitioning a sum over a list by the (bounded) value of a projection:
grouping the terms by projection value and summing the groups over the value
range gives the original sum. -/
theorem sum_partition_by_coord (L : List Nat) (p : Nat → Nat) (h : Nat → Int)
    (n : Nat) (hp : ∀ x ∈ L, p x < n) :
    ((List.range n).map
      (fun k => ((L.filter (fun x => decide (p x = k))).map h).sum)).sum
      = (L.map h).sum := by
  induction L with
  | nil => simp
  | cons x L ih =>
    have hx : p x < n := hp x (List.mem_cons_self x L)
    have hL : ∀ z ∈ L, p z < n := fun z hz => hp z (List.mem_cons_of_mem x hz)
    have key : ∀ k, (((x :: L).filter (fun z => decide (p z = k))).map h).sum
        = (if p x = k then h x else 0)
          + ((L.filter (fun z => decide (p z = k))).map h).sum := by
      intro k
      rw [List.filter_cons]
      by_cases hk : p x = k
      · rw [if_pos (by simpa using hk), List.map_cons, List.sum_cons, if_pos hk]
      · rw [if_neg (by simpa using hk), if_neg hk, zero_add]
    calc ((List.range n).map
          (fun k => (((x :: L).filter (fun z => decide (p z = k))).map h).sum)).sum
        = ((List.range n).map (fun k => (if p x = k then h x else 0)
            + ((L.filter (fun z => decide (p z = k))).map h).sum)).sum := by
          exact congrArg List.sum (List.map_congr_left (fun k _ => key k))
      _ = ((List.range n).map (fun k => if p x = k then h x else 0)).sum
            + ((List.range n).map
                (fun k => ((L.filter (fun z => decide (p z = k))).map h).sum)).sum := by
          rw [← sum_map_add_split]
      _ = h x + (L.map h).sum := by
          rw [sum_map_range_ite n (p x) (h x) hx, ih hL]
      _ = ((x :: L).map h).sum := by
          rw [List.map_cons, List.sum_cons]

/-- The position walk with coordinate recovery computes the row of the logical
matrix the CSR data denotes: accumulating `val[idx] * B[coord[idx]]` over the
position range equals summing `A_logical[i,k] * B[k]` over all coordinates
`k`, provided every recovered coordinate lies below the axis extent. -/
theorem spmvRow_eq_logical (A : CSR) (B : Nat → Int) (n i : Nat)
    (hb : ∀ idx ∈ csrRange A i, A.coord.getD idx 0 < n) :
    spmvRow A B i = ((List.range n).map (fun k => A.logical i k * B k)).sum := by
  rw [spmvRow, foldl_add_eq_sum, zero_add]
  have hk : ∀ k, A.logical i k * B k
      = (((csrRange A i).filter (fun idx => decide (A.coord.getD idx 0 = k))).map
          (fun idx => A.val.getD idx 0 * B (A.coord.getD idx 0))).sum := by
    intro k
    rw [CSR.logical, ← List.sum_map_mul_right]
    refine congrArg List.sum (List.map_congr_left ?_)
    intro idx hidx
    have hck : A.coord.getD idx 0 = k := by
      have := (List.mem_filter.mp hidx).2
      simpa using this
    rw [hck]
  rw [List.map_congr_left (fun k _ => hk k)]
  exact (sum_partition_by_coord (csrRange A i)
    (fun idx => A.coord.getD idx 0)
    (fun idx => A.val.getD idx 0 * B (A.coord.getD idx 0)) n hb).symm

/-- C2: when exactly one referencing tensor declares Sparse at an axis (also
in the mixed Dense/Sparse case), the Merger emits SparsePositionWalk for any
combination kind, the Lowerer emits a position-walk frame driven by the sparse
contributor, and the walk's recovered coordinate acts as the logical
axis-index value: the dense contributor `B` is indexed directly by the
recovered coordinate, and the accumulated result equals the sum of
`A_logical[i,k] * B[k]` over the axis coordinates. -/
theorem claim_C2_single_sparse :
    (∀ (contribs : List LevelFormat) (c : CombineKind),
        sparseCount contribs = 1 →
        mergeAxis contribs c = Except.ok MergeKind.SparsePositionWalk) ∧
    (∀ (a : AxisSpec) (rest : List AxisSpec) (body : LoopNest),
        sparseCount a.contribs = 1 →
        lowerNest rest = Except.ok body →
        lowerNest (a :: rest)
          = Except.ok (LoopNest.posWalkLoop
              (a.contribs.findIdx (fun f => f = LevelFormat.Sparse)) body)) ∧
    (∀ (A : CSR) (B : Nat → Int) (n i : Nat),
        (∀ idx ∈ csrRange A i, A.coord.getD idx 0 < n) →
        spmvRow A B i
          = ((List.range n).map (fun k => A.logical i k * B k)).sum) := by
  refine ⟨?_, ?_, ?_⟩
  · intro contribs c h
    unfold mergeAxis
    rw [if_neg (by omega), if_pos h]
  · intro a rest body h hrest
    have hm : mergeAxis a.contribs a.combine
        = Except.ok MergeKind.SparsePositionWalk := by
      unfold mergeAxis
      rw [if_neg (by omega), if_pos h]
    rw [lowerNest, hm, hrest]
  · exact spmvRow_eq_logical

/-- C2 witness: the mixed Sparse/Dense axis of the SpMV definition, and a
concrete CSR row evaluated against its logical matrix. -/
theorem claim_C2_single_sparse_witness :
    sparseCount [LevelFormat.Sparse, LevelFormat.Dense] = 1 ∧
    mergeAxis [LevelFormat.Sparse, LevelFormat.Dense] CombineKind.mul
      = Except.ok MergeKind.SparsePositionWalk ∧
    lowerNest [AxisSpec.mk 4 [LevelFormat.Sparse, LevelFormat.Dense] CombineKind.mul]
      = Except.ok (LoopNest.posWalkLoop 0 LoopNest.leaf) ∧
    (∀ idx ∈ csrRange (CSR.mk [0, 2] [1, 3] [5, 7]) 0,
        (CSR.mk [0, 2] [1, 3] [5, 7]).coord.getD idx 0 < 4) ∧
    spmvRow (CSR.mk [0, 2] [1, 3] [5, 7]) (fun _ => 1) 0
      = ((List.range 4).map
          (fun k => (CSR.mk [0, 2] [1, 3] [5, 7]).logical 0 k
            * (fun _ => (1 : Int)) k)).sum :=
  ⟨by decide,
   claim_C2_single_sparse.1 [LevelFormat.Sparse, LevelFormat.Dense]
     CombineKind.mul (by decide),
   claim_C2_single_sparse.2.1
     (AxisSpec.mk 4 [LevelFormat.Sparse, LevelFormat.Dense] CombineKind.mul)
     [] LoopNest.leaf (by decide) rfl,
   by decide,
   claim_C2_single_sparse.2.2 (CSR.mk [0, 2] [1, 3] [5, 7]) (fun _ => 1) 4 0
     (by decide)⟩

end SparseLowering
